import Mathlib

/-!
# Verification of the DSC workshop notebook (`DSC_Workshop_Neural_Nets_tim.ipynb`)

A shallow embedding of the notebook's training/evaluation pipeline:

* `chunks` — the batch iterator (`DataLoader` with `batch_size=B`, `drop_last=False`):
  one pass over a dataset list yields consecutive groups of `B` samples.
* `Tensor` — a row-major shape/data model of torch tensors, with `flattenFrom1`
  (`nn.Flatten()` / `torch.flatten(x, 1)`), `linear` (`nn.Linear`) and `reluT`
  (`nn.ReLU`), used to embed the two `NeuralNetwork.forward` definitions.
* `trainStep` / `train` — the training loop (forward, loss, `zero_grad`,
  `backward`, `step`), with gradients and parameters as flat rational vectors
  and the reverse-mode gradient given as an oracle function.
* `test` — the evaluation loop, accumulating summed loss and correct counts.
* `runEpochs` — the epoch driver tracking the best validation accuracy.

Python division raising `ZeroDivisionError` is modelled by `pydiv : ℚ → ℚ → Option ℚ`.
Real-valued loss computations are abstracted as functions into `ℚ`.
-/

namespace DLDemo

/-- One pass of the batch iterator: `DataLoader(ds, batch_size=B, drop_last=False)`
yields the first `B` samples, then the next `B`, …, the last group possibly smaller. -/
def chunks (B : ℕ) (xs : List α) : List (List α) :=
  if B = 0 ∨ xs.isEmpty then []
  else xs.take B :: chunks B (xs.drop B)
termination_by xs.length
decreasing_by
  rename_i h
  push_neg at h
  have hB : 0 < B := Nat.pos_of_ne_zero h.1
  have hx : 0 < xs.length := by
    cases xs with
    | nil => simp at h
    | cons a l => simp
  simpa using Nat.sub_lt hx hB

/-! ## Tensor model and the two `NeuralNetwork.forward` definitions

A torch tensor is modelled row-major: a shape together with the flat list of
entries.  `nn.Flatten()` (default `start_dim=1`) and `torch.flatten(x, 1)` both
collapse all dimensions after the first, leaving the data untouched.
`nn.Linear(in, out)` applies `x ↦ W x + b` along the last dimension, and
`nn.ReLU` clamps every entry at zero. -/

/-- A torch tensor: a shape and its entries in row-major order. -/
structure Tensor where
  shape : List ℕ
  data : List ℚ
deriving DecidableEq

/-- `nn.Flatten()` / `torch.flatten(x, 1)`: collapse all dimensions after the
first into one; the row-major data is unchanged. -/
def flattenFrom1 (t : Tensor) : Tensor :=
  { shape := [t.shape.headI, (t.shape.drop 1).prod], data := t.data }

/-- Dot product of two coefficient lists. -/
def dot (r v : List ℚ) : ℚ :=
  (List.zipWith (fun a b => a * b) r v).sum

/-- One affine map `v ↦ W v + b`, one output entry per weight row. -/
def affine (W : List (List ℚ)) (b : List ℚ) (v : List ℚ) : List ℚ :=
  List.zipWith (fun r bi => dot r v + bi) W b

/-- `nn.Linear` with weight matrix `W` (one row per output feature) and bias
`b`: apply the affine map along the last dimension of the tensor. -/
def linear (W : List (List ℚ)) (b : List ℚ) (t : Tensor) : Tensor :=
  { shape := t.shape.dropLast ++ [W.length],
    data := ((chunks W.headI.length t.data).map (affine W b)).flatten }

/-- `nn.ReLU`: clamp every entry at zero. -/
def reluT (t : Tensor) : Tensor :=
  { shape := t.shape, data := t.data.map (fun q => max q 0) }

/-- `max · 0` on a plain vector, the per-sample view of `nn.ReLU`. -/
def reluVec (v : List ℚ) : List ℚ :=
  v.map (fun q => max q 0)

/-- The parameters of the notebook's `NeuralNetwork`: weights and biases of the
three `nn.Linear` layers. -/
structure NNParams where
  W1 : List (List ℚ)
  b1 : List ℚ
  W2 : List (List ℚ)
  b2 : List ℚ
  W3 : List (List ℚ)
  b3 : List ℚ
deriving DecidableEq

/-- `nn.Sequential`: apply the layers in order. -/
def seqApply (layers : List (Tensor → Tensor)) (t : Tensor) : Tensor :=
  layers.foldl (fun x f => f x) t

/-- `self.linear_relu_stack`: `Linear(3*64*64, 64), ReLU(), Linear(64, 64), ReLU()`. -/
def linearReluStack (p : NNParams) : List (Tensor → Tensor) :=
  [linear p.W1 p.b1, reluT, linear p.W2 p.b2, reluT]

/-- `self.last_layer`: `Linear(64, 8)`. -/
def lastLayer (p : NNParams) : List (Tensor → Tensor) :=
  [linear p.W3 p.b3]

/-- `NeuralNetwork.forward` of the walkthrough model (cell defining the first
`NeuralNetwork`): `flatten`, then `linear_relu_stack`, then `last_layer`. -/
def forward (p : NNParams) (x : Tensor) : Tensor :=
  let x1 := flattenFrom1 x
  let x2 := seqApply (linearReluStack p) x1
  seqApply (lastLayer p) x2

/-- `NeuralNetwork.forward` of the exercise model (second `NeuralNetwork`
definition): identical except for an extra `torch.flatten(x, 1)` between the
stack and the last layer. -/
def forwardEx (p : NNParams) (x : Tensor) : Tensor :=
  let x1 := flattenFrom1 x
  let x2 := seqApply (linearReluStack p) x1
  let x3 := flattenFrom1 x2
  seqApply (lastLayer p) x3

/-- The fixed ordered class list of the notebook (cell defining `classes`). -/
def classes : List String := ["DE", "ES", "FR", "IE", "JP", "NL", "UK", "US"]

/-- Per-sample view of the network: flatten the sample to a vector, then
linear, ReLU, linear, ReLU, linear — raw scores, no normalization. -/
def sampleNet (p : NNParams) (v : List ℚ) : List ℚ :=
  affine p.W3 p.b3 (reluVec (affine p.W2 p.b2 (reluVec (affine p.W1 p.b1 v))))

/-! ## Evaluation and training loops

The loops are embedded over an abstract sample type `σ`.  The model is a
function from a flat parameter vector to per-sample score vectors, the loss a
function from parameters and a batch to a rational, and reverse-mode
differentiation an oracle `gradFn` from parameters and a batch to the gradient
vector.  Python's division (which raises `ZeroDivisionError` on a zero
denominator) is `pydiv`. -/

/-- The notebook's configured batch size (`DataLoader(..., batch_size=32, ...)`). -/
def batchSize : ℕ := 32

/-- The notebook's configured epoch count (`epochs = 50`). -/
def numEpochs : ℕ := 50

/-- Python division: raises `ZeroDivisionError` (modelled as `none`) on a zero
denominator. -/
def pydiv (a b : ℚ) : Option ℚ :=
  if b = 0 then none else some (a / b)

/-- `preds.argmax(1)` for one sample: the index of the first maximal score. -/
def argmaxIdx (l : List ℚ) : ℕ :=
  (l.enum.foldl (fun best iv => if iv.2 > best.2 then iv else best) (0, l.headI)).1

/-- `(preds.argmax(1) == y).type(torch.float).sum().item()` for one batch: the
number of samples whose first-maximal predicted class equals the label. -/
def countCorrect (model : σ → List ℚ) (batch : List (σ × ℕ)) : ℕ :=
  batch.countP (fun s => argmaxIdx (model s.1) == s.2)

/-- The notebook's `test(dataloader, model, loss_fn)`: accumulate the batch
losses and correct counts over one pass of the validation loader, then divide
once by the number of batches resp. the dataset size, and return
`(correct * 100, test_loss)`. -/
def test (B : ℕ) (ds : List (σ × ℕ)) (model : σ → List ℚ)
    (lossFn : List (σ × ℕ) → ℚ) : Option (ℚ × ℚ) :=
  let size : ℚ := (ds.length : ℚ)
  let batches := chunks B ds
  let numBatches : ℚ := (batches.length : ℚ)
  let testLoss : ℚ := (batches.map lossFn).sum
  let correct : ℚ := (((batches.map (countCorrect model)).sum : ℕ) : ℚ)
  match pydiv testLoss numBatches, pydiv correct size with
  | some l, some c => some (c * 100, l)
  | _, _ => none

/-- The mutable training state: the model's flat parameter vector and the
parameters' accumulated-gradient buffer. -/
structure NetState where
  params : List ℚ
  grads : List ℚ
deriving DecidableEq

/-- `optimizer.zero_grad()`: reset every accumulated gradient to zero. -/
def zeroGrad (st : NetState) : NetState :=
  { st with grads := st.grads.map (fun _ => 0) }

/-- `loss.backward()`: reverse-mode differentiation adds the fresh gradient
`g` into the accumulated-gradient buffer. -/
def backwardAdd (g : List ℚ) (st : NetState) : NetState :=
  { st with grads := List.zipWith (fun a b => a + b) st.grads g }

/-- `optimizer.step()` for SGD: each parameter decreases by the learning rate
times its accumulated gradient. -/
def sgdStep (lr : ℚ) (st : NetState) : NetState :=
  { st with params := List.zipWith (fun p gr => p - lr * gr) st.params st.grads }

/-- One iteration of the loop body of the notebook's `train`: forward pass and
loss, `optimizer.zero_grad()`, `loss.backward()`, `optimizer.step()`; the
scalar loss is returned for accumulation into `train_loss`. -/
def trainStep (lossFn : List ℚ → List (σ × ℕ) → ℚ)
    (gradFn : List ℚ → List (σ × ℕ) → List ℚ) (lr : ℚ)
    (st : NetState) (batch : List (σ × ℕ)) : NetState × ℚ :=
  let loss := lossFn st.params batch
  let st1 := zeroGrad st
  let st2 := backwardAdd (gradFn st1.params batch) st1
  let st3 := sgdStep lr st2
  (st3, loss)

/-- The notebook's `train(dataloader, model, loss_fn, optimizer)`: run the
step on every batch of one pass, accumulating `train_loss`, then return
`train_loss / num_batches`. -/
def train (lossFn : List ℚ → List (σ × ℕ) → ℚ)
    (gradFn : List ℚ → List (σ × ℕ) → List ℚ) (lr : ℚ)
    (B : ℕ) (ds : List (σ × ℕ)) (st : NetState) : NetState × Option ℚ :=
  let batches := chunks B ds
  let numBatches : ℚ := (batches.length : ℚ)
  let out := batches.foldl
    (fun (acc : NetState × ℚ) b =>
      let r := trainStep lossFn gradFn lr acc.1 b
      (r.1, acc.2 + r.2))
    (st, 0)
  (out.1, pydiv out.2 numBatches)

/-! ### Per-batch operation traces

The straight-line per-batch bodies of `train` and `test` as lists of the
framework operations they invoke, with their effect on the training state.
`test` runs under `torch.no_grad()` and contains neither `zero_grad`,
`backward` nor `step`. -/

inductive TorchOp (σ : Type) where
  | forwardOp (batch : List (σ × ℕ))
  | lossOp (batch : List (σ × ℕ))
  | zeroGradOp
  | backwardOp (batch : List (σ × ℕ))
  | optStepOp
  | accumOp

/-- Effect of one framework operation on the training state: the forward pass,
loss evaluation and Python-scalar accumulation do not touch parameters or
gradients; `zero_grad`, `backward` and `step` mutate them as above. -/
def opEffect (gradFn : List ℚ → List (σ × ℕ) → List ℚ) (lr : ℚ) :
    TorchOp σ → NetState → NetState
  | .forwardOp _, st => st
  | .lossOp _, st => st
  | .zeroGradOp, st => zeroGrad st
  | .backwardOp b, st => backwardAdd (gradFn st.params b) st
  | .optStepOp, st => sgdStep lr st
  | .accumOp, st => st

/-- The operations of one iteration of `train`'s loop body, in source order. -/
def trainBatchTrace (b : List (σ × ℕ)) : List (TorchOp σ) :=
  [.forwardOp b, .lossOp b, .zeroGradOp, .backwardOp b, .optStepOp, .accumOp]

/-- The operations of one iteration of `test`'s loop body, in source order:
forward pass, loss/correct evaluation and scalar accumulation only. -/
def testBatchTrace (b : List (σ × ℕ)) : List (TorchOp σ) :=
  [.forwardOp b, .lossOp b, .accumOp]

/-- Run a list of framework operations on the training state. -/
def runTrace (gradFn : List ℚ → List (σ × ℕ) → List ℚ) (lr : ℚ)
    (ops : List (TorchOp σ)) (st : NetState) : NetState :=
  ops.foldl (fun s op => opEffect gradFn lr op s) st

/-! ### Epoch driver

The notebook's final cells: `epochs = 50`, `best_score = 0.`, and per epoch one
full `train(...)` pass over the (re-shuffled) training loader followed by one
full `test(...)` pass over the validation loader, keeping
`best_score = max(best_score, test_correct)`. -/

/-- Everything the epoch driver needs: the batch loss as a function of the
parameters (`loss_fn` composed with the model), the autodiff oracle, the
learning rate, the batch size, the shuffled training split presented in each
epoch, the fixed validation split, and the model's per-sample score function. -/
structure TrainConfig (σ : Type) where
  lossOf : List ℚ → List (σ × ℕ) → ℚ
  gradFn : List ℚ → List (σ × ℕ) → List ℚ
  lr : ℚ
  B : ℕ
  perm : ℕ → List (σ × ℕ)
  valDs : List (σ × ℕ)
  netF : List ℚ → σ → List ℚ

/-- One epoch: a full training pass, then a full evaluation pass returning the
epoch's validation accuracy. -/
def epochStep (cfg : TrainConfig σ) (e : ℕ) (st : NetState) : Option (NetState × ℚ) :=
  let tr := train cfg.lossOf cfg.gradFn cfg.lr cfg.B (cfg.perm e) st
  match tr.2 with
  | none => none
  | some _ =>
    match test cfg.B cfg.valDs (cfg.netF tr.1.params) (cfg.lossOf tr.1.params) with
    | none => none
    | some av => some (tr.1, av.1)

/-- The epoch loop: `r` epochs remain, `e` is the current epoch index, `best`
the running `best_score`, `accsRev` the accuracies recorded so far (reversed). -/
def epochLoop (cfg : TrainConfig σ) :
    ℕ → ℕ → NetState → ℚ → List ℚ → Option (NetState × ℚ × List ℚ)
  | 0, _, st, best, accsRev => some (st, best, accsRev.reverse)
  | r + 1, e, st, best, accsRev =>
    match epochStep cfg e st with
    | none => none
    | some sa => epochLoop cfg r (e + 1) sa.1 (max best sa.2) (sa.2 :: accsRev)

/-- The whole run: `epochs` epochs from the initial state, `best_score = 0.`. -/
def runEpochs (cfg : TrainConfig σ) (epochs : ℕ) (st0 : NetState) :
    Option (NetState × ℚ × List ℚ) :=
  epochLoop cfg epochs 0 st0 0 []

/-- The state after the training pass of epoch `e` (evaluation does not appear:
it has no effect on the state). -/
def trainPassState (cfg : TrainConfig σ) (e : ℕ) (st : NetState) : NetState :=
  (train cfg.lossOf cfg.gradFn cfg.lr cfg.B (cfg.perm e) st).1

/-- The state after `r` consecutive training passes starting at epoch `e`. -/
def statesFrom (cfg : TrainConfig σ) : NetState → ℕ → ℕ → NetState
  | st, _, 0 => st
  | st, e, r + 1 => statesFrom cfg (trainPassState cfg e st) (e + 1) r

/-- The aggregate validation accuracy of parameter vector `p`:
`100 · #correct / #samples`. -/
def accOf (cfg : TrainConfig σ) (p : List ℚ) : ℚ :=
  100 * ((countCorrect (cfg.netF p) cfg.valDs : ℕ) : ℚ) / ((cfg.valDs.length : ℕ) : ℚ)

/-- The validation accuracies recorded during `r` epochs starting at epoch `e`. -/
def accsFrom (cfg : TrainConfig σ) : NetState → ℕ → ℕ → List ℚ
  | _, _, 0 => []
  | st, e, r + 1 =>
    accOf cfg (trainPassState cfg e st).params ::
      accsFrom cfg (trainPassState cfg e st) (e + 1) r

/-! ### Preprocessing pipeline

`torchvision` transforms, modelled as functions threading an explicit stream
of random draws: deterministic transforms (`Resize`, `ToTensor`) ignore and do
not consume the stream, `RandomRotation` consumes one draw.  `Compose` applies
the transforms in order. -/

/-- A stream of random draws together with the position of the next draw. -/
structure RandState where
  stream : ℕ → ℚ
  pos : ℕ

/-- Consume one random draw. -/
def draw (r : RandState) : ℚ × RandState :=
  (r.stream r.pos, ⟨r.stream, r.pos + 1⟩)

/-- A torchvision transform: maps an image and the random stream to an image
and the remaining stream. -/
def Tf (α : Type) : Type :=
  α → RandState → α × RandState

/-- A deterministic transform (`Resize((64,64))`, `ToTensor()`): applies a pure
function, consumes no randomness. -/
def detTf (f : α → α) : Tf α :=
  fun x r => (f x, r)

/-- `RandomRotation(degrees=(-45, 45))`: consumes one draw (the sampled angle)
and rotates by it. -/
def randomRotationTf (rot : ℚ → α → α) : Tf α :=
  fun x r =>
    let d := draw r
    (rot d.1 x, d.2)

/-- `transforms.Compose`: apply the transforms in order. -/
def composeTf (ts : List (Tf α)) : Tf α :=
  fun x r => ts.foldl (fun p t => t p.1 p.2) (x, r)

/-- `base_transformations = [Resize((64,64)), ToTensor()]`, with the resize and
tensor-conversion kernels abstract. -/
def baseTransformations (resize toTensor : α → α) : List (Tf α) :=
  [detTf resize, detTf toTensor]

/-- `test_transformations = transforms.Compose(base_transformations)`: the
validation pipeline, with no augmentation. -/
def test_transformations (resize toTensor : α → α) : Tf α :=
  composeTf (baseTransformations resize toTensor)

/-- `train_transformations` of the exercise run: the base pipeline followed by
`RandomRotation(degrees=(-45, 45))`. -/
def train_transformations_aug (resize toTensor : α → α) (rot : ℚ → α → α) : Tf α :=
  composeTf (baseTransformations resize toTensor ++ [randomRotationTf rot])

/-- A concrete driver configuration for the witness: one training sample, one
validation sample, trivial loss and gradient oracles. -/
def demoCfg : TrainConfig ℕ :=
  { lossOf := fun _ _ => 0
    gradFn := fun _ _ => []
    lr := 0
    B := batchSize
    perm := fun _ => [(0, 0)]
    valDs := [(0, 0)]
    netF := fun _ _ => [1] }


/-! ## Theorems -/

theorem chunks_nil (B : ℕ) : chunks B ([] : List α) = [] := by
  rw [chunks]; simp

theorem chunks_zero (xs : List α) : chunks 0 xs = [] := by
  rw [chunks]; simp

theorem chunks_cons_of_ne (B : ℕ) (hB : B ≠ 0) (xs : List α) (hx : xs ≠ []) :
    chunks B xs = xs.take B :: chunks B (xs.drop B) := by
  rw [chunks]
  simp [hB, hx]

/-- Concatenating the batches of one pass recovers the dataset in order. -/
theorem chunks_flatten (B : ℕ) (hB : B ≠ 0) (xs : List α) :
    (chunks B xs).flatten = xs := by
  have main : ∀ n (xs : List α), xs.length ≤ n → (chunks B xs).flatten = xs := by
    intro n
    induction n with
    | zero =>
      intro xs h
      have : xs = [] := List.eq_nil_of_length_eq_zero (by omega)
      simp [this, chunks_nil]
    | succ n ih =>
      intro xs h
      rcases eq_or_ne xs [] with rfl | hx
      · simp [chunks_nil]
      · have hx' : 0 < xs.length := List.length_pos.mpr hx
        rw [chunks_cons_of_ne B hB xs hx]
        have hrec : (chunks B (xs.drop B)).flatten = xs.drop B := by
          apply ih
          have hB' : 0 < B := Nat.pos_of_ne_zero hB
          simp only [List.length_drop]
          omega
        simp [hrec]
  exact main xs.length xs le_rfl

/-- The number of batches in one pass is `⌈S/B⌉ = (S + B - 1) / B`. -/
theorem chunks_length (B : ℕ) (hB : B ≠ 0) (xs : List α) :
    (chunks B xs).length = (xs.length + B - 1) / B := by
  have main : ∀ n (xs : List α), xs.length ≤ n →
      (chunks B xs).length = (xs.length + B - 1) / B := by
    intro n
    induction n with
    | zero =>
      intro xs h
      have hx : xs = [] := List.eq_nil_of_length_eq_zero (by omega)
      subst hx
      simp only [chunks_nil, List.length_nil]
      exact (Nat.div_eq_of_lt (by omega)).symm
    | succ n ih =>
      intro xs h
      rcases eq_or_ne xs [] with rfl | hx
      · simp only [chunks_nil, List.length_nil]
        exact (Nat.div_eq_of_lt (by omega)).symm
      · have hx' : 0 < xs.length := List.length_pos.mpr hx
        have hB' : 0 < B := Nat.pos_of_ne_zero hB
        rw [chunks_cons_of_ne B hB xs hx]
        have hrec := ih (xs.drop B) (by simp only [List.length_drop]; omega)
        simp only [List.length_cons, hrec, List.length_drop]
        rcases le_or_lt xs.length B with hle | hlt
        · have h1 : xs.length - B = 0 := by omega
          have h2 : (0 + B - 1) / B = 0 := Nat.div_eq_of_lt (by omega)
          have h3 : xs.length + B - 1 = (xs.length - 1) + B := by omega
          rw [h1, h2, h3, Nat.add_div_right _ hB', Nat.div_eq_of_lt (by omega)]
        · have h3 : xs.length + B - 1 = ((xs.length - B) + B - 1) + B := by omega
          rw [h3, Nat.add_div_right _ hB']
  exact main xs.length xs le_rfl

/-- Every batch of one pass except possibly the last has exactly `B` samples. -/
theorem chunks_dropLast_length (B : ℕ) (hB : B ≠ 0) (xs : List α) :
    ∀ c ∈ (chunks B xs).dropLast, c.length = B := by
  have main : ∀ n (xs : List α), xs.length ≤ n →
      ∀ c ∈ (chunks B xs).dropLast, c.length = B := by
    intro n
    induction n with
    | zero =>
      intro xs h
      have hx : xs = [] := List.eq_nil_of_length_eq_zero (by omega)
      subst hx
      simp [chunks_nil]
    | succ n ih =>
      intro xs h
      rcases eq_or_ne xs [] with rfl | hx
      · simp [chunks_nil]
      · have hx' : 0 < xs.length := List.length_pos.mpr hx
        have hB' : 0 < B := Nat.pos_of_ne_zero hB
        rw [chunks_cons_of_ne B hB xs hx]
        rcases eq_or_ne (xs.drop B) [] with hd | hd
        · simp [hd, chunks_nil]
        · have hxB : B < xs.length := by
            by_contra hc
            exact hd (List.drop_eq_nil_of_le (by omega))
          have hchunks : chunks B (xs.drop B) ≠ [] := by
            rw [chunks_cons_of_ne B hB _ hd]; simp
          intro c hc
          rw [List.dropLast_cons_of_ne_nil hchunks] at hc
          rcases List.mem_cons.mp hc with rfl | hc
          · simp only [List.length_take]
            omega
          · exact ih (xs.drop B) (by simp only [List.length_drop]; omega) c hc
  exact main xs.length xs le_rfl

/-- Every batch of one pass has at most `B` samples. -/
theorem chunks_le_length (B : ℕ) (xs : List α) :
    ∀ c ∈ chunks B xs, c.length ≤ B := by
  have main : ∀ n (xs : List α), xs.length ≤ n → ∀ c ∈ chunks B xs, c.length ≤ B := by
    intro n
    induction n with
    | zero =>
      intro xs h
      have hx : xs = [] := List.eq_nil_of_length_eq_zero (by omega)
      subst hx
      simp [chunks_nil]
    | succ n ih =>
      intro xs h
      rcases eq_or_ne xs [] with rfl | hx
      · simp [chunks_nil]
      rcases eq_or_ne B 0 with rfl | hB
      · simp [chunks_zero]
      have hx' : 0 < xs.length := List.length_pos.mpr hx
      have hB' : 0 < B := Nat.pos_of_ne_zero hB
      rw [chunks_cons_of_ne B hB xs hx]
      intro c hc
      rcases List.mem_cons.mp hc with rfl | hc
      · simp [List.length_take]
      · exact ih (xs.drop B) (by simp only [List.length_drop]; omega) c hc
  exact main xs.length xs le_rfl

theorem flattenFrom1_shape (t : Tensor) :
    (flattenFrom1 t).shape = [t.shape.headI, (t.shape.drop 1).prod] := rfl

theorem linear_shape (W : List (List ℚ)) (b : List ℚ) (t : Tensor) :
    (linear W b t).shape = t.shape.dropLast ++ [W.length] := rfl

/-- `torch.flatten(x, 1)` is the identity on a tensor that is already 2-D. -/
theorem flattenFrom1_of_rank2 (t : Tensor) (a c : ℕ) (h : t.shape = [a, c]) :
    flattenFrom1 t = t := by
  cases t with
  | mk sh d =>
    simp only at h
    subst h
    simp [flattenFrom1]

theorem affine_length (W : List (List ℚ)) (b : List ℚ) (v : List ℚ) :
    (affine W b v).length = min W.length b.length := by
  simp [affine]

/-- Splitting the concatenation of uniformly sized rows at the row size
recovers the rows. -/
theorem chunks_flatten_of_uniform (k : ℕ) (hk : k ≠ 0) (l : List (List α))
    (h : ∀ r ∈ l, r.length = k) : chunks k l.flatten = l := by
  induction l with
  | nil => simp [chunks_nil]
  | cons r t ih =>
    have hr : r.length = k := h r (List.mem_cons_self r t)
    have hne : (r :: t).flatten ≠ [] := by
      simp only [List.flatten_cons]
      intro hc
      rcases List.append_eq_nil.mp hc with ⟨hr0, -⟩
      rw [hr0] at hr
      exact hk hr.symm
    rw [List.flatten_cons] at hne ⊢
    rw [chunks_cons_of_ne k hk _ hne, List.take_left' hr, List.drop_left' hr]
    rw [ih (fun r hr' => h r (List.mem_cons_of_mem _ hr'))]

theorem linear_data (W : List (List ℚ)) (b : List ℚ) (t : Tensor) :
    (linear W b t).data = ((chunks W.headI.length t.data).map (affine W b)).flatten := rfl

theorem linear_flatten_uniform (W : List (List ℚ)) (b : List ℚ) (sh : List ℕ)
    (rows : List (List ℚ)) (k : ℕ) (hk : k ≠ 0)
    (hrows : ∀ r ∈ rows, r.length = k) (hW : W.headI.length = k) :
    linear W b ⟨sh, rows.flatten⟩ =
      ⟨sh.dropLast ++ [W.length], (rows.map (affine W b)).flatten⟩ := by
  simp only [linear, hW]
  rw [chunks_flatten_of_uniform k hk rows hrows]

theorem reluT_flatten (sh : List ℕ) (rows : List (List ℚ)) :
    reluT ⟨sh, rows.flatten⟩ = ⟨sh, (rows.map reluVec).flatten⟩ := by
  simp only [reluT, List.map_flatten]
  rfl

/-- Closed form of the walkthrough `forward`: shape `[batch, #classes]` and,
sample by sample, the raw-score composition `sampleNet`. -/
theorem forward_closed_form (p : NNParams) (x : Tensor)
    (hb1 : p.b1.length = p.W1.length)
    (hb2 : p.b2.length = p.W2.length)
    (hW1pos : p.W1 ≠ [])
    (hW2pos : p.W2 ≠ [])
    (hW2in : p.W2.headI.length = p.W1.length)
    (hW3in : p.W3.headI.length = p.W2.length) :
    (forward p x).shape = [x.shape.headI, p.W3.length] ∧
    (forward p x).data =
      ((chunks p.W1.headI.length x.data).map (sampleNet p)).flatten := by
  have hW1len : p.W1.length ≠ 0 := fun h => hW1pos (List.eq_nil_of_length_eq_zero h)
  have hW2len : p.W2.length ≠ 0 := fun h => hW2pos (List.eq_nil_of_length_eq_zero h)
  set rows0 := chunks p.W1.headI.length x.data with hrows0
  have e1 : linear p.W1 p.b1 (flattenFrom1 x) =
      ⟨[x.shape.headI, p.W1.length], (rows0.map (affine p.W1 p.b1)).flatten⟩ := by
    simp [linear, flattenFrom1, hrows0]
  set rows1 := (rows0.map (affine p.W1 p.b1)).map reluVec with hrows1
  have hrows1len : ∀ r ∈ rows1, r.length = p.W1.length := by
    intro r hr
    rw [hrows1] at hr
    rcases List.mem_map.mp hr with ⟨s, hs, rfl⟩
    rcases List.mem_map.mp hs with ⟨v, hv, rfl⟩
    simp [reluVec, affine_length, hb1]
  have e2 : reluT (linear p.W1 p.b1 (flattenFrom1 x)) =
      ⟨[x.shape.headI, p.W1.length], rows1.flatten⟩ := by
    rw [e1, reluT_flatten, hrows1]
  have e3 : linear p.W2 p.b2 (reluT (linear p.W1 p.b1 (flattenFrom1 x))) =
      ⟨[x.shape.headI, p.W2.length], (rows1.map (affine p.W2 p.b2)).flatten⟩ := by
    rw [e2, linear_flatten_uniform p.W2 p.b2 _ rows1 p.W1.length hW1len hrows1len hW2in]
    rfl
  set rows2 := (rows1.map (affine p.W2 p.b2)).map reluVec with hrows2
  have hrows2len : ∀ r ∈ rows2, r.length = p.W2.length := by
    intro r hr
    rw [hrows2] at hr
    rcases List.mem_map.mp hr with ⟨s, hs, rfl⟩
    rcases List.mem_map.mp hs with ⟨v, hv, rfl⟩
    simp [reluVec, affine_length, hb2]
  have e4 : reluT (linear p.W2 p.b2 (reluT (linear p.W1 p.b1 (flattenFrom1 x)))) =
      ⟨[x.shape.headI, p.W2.length], rows2.flatten⟩ := by
    rw [e3, reluT_flatten, hrows2]
  have e5 : linear p.W3 p.b3
        (reluT (linear p.W2 p.b2 (reluT (linear p.W1 p.b1 (flattenFrom1 x))))) =
      ⟨[x.shape.headI, p.W3.length], ((rows2.map (affine p.W3 p.b3))).flatten⟩ := by
    rw [e4, linear_flatten_uniform p.W3 p.b3 _ rows2 p.W2.length hW2len hrows2len hW3in]
    rfl
  have e6 : forward p x = linear p.W3 p.b3
      (reluT (linear p.W2 p.b2 (reluT (linear p.W1 p.b1 (flattenFrom1 x))))) := rfl
  rw [e6, e5]
  refine ⟨rfl, ?_⟩
  simp only [hrows2, hrows1, List.map_map]
  rfl

/-! ## Supporting lemmas -/

theorem chunks_ne_nil (B : ℕ) (hB : B ≠ 0) (xs : List α) (hx : xs ≠ []) :
    chunks B xs ≠ [] := by
  rw [chunks_cons_of_ne B hB xs hx]
  simp

/-- Correct counts accumulated batch-by-batch equal the correct count over the
whole split. -/
theorem countCorrect_chunks (B : ℕ) (hB : B ≠ 0) (ds : List (σ × ℕ))
    (model : σ → List ℚ) :
    ((chunks B ds).map (countCorrect model)).sum = countCorrect model ds := by
  unfold countCorrect
  rw [← List.countP_flatten, chunks_flatten B hB]

/-- Closed form of `test` on a nonempty split: the aggregate accuracy
`100 · #correct / #samples` and the summed batch losses divided by the number
of batches. -/
theorem test_closed_form (B : ℕ) (hB : B ≠ 0) (ds : List (σ × ℕ)) (hds : ds ≠ [])
    (model : σ → List ℚ) (lossFn : List (σ × ℕ) → ℚ) :
    test B ds model lossFn =
      some (100 * ((countCorrect model ds : ℕ) : ℚ) / ((ds.length : ℕ) : ℚ),
            ((chunks B ds).map lossFn).sum / (((chunks B ds).length : ℕ) : ℚ)) := by
  have hnum : (((chunks B ds).length : ℕ) : ℚ) ≠ 0 := by
    have h := chunks_ne_nil B hB ds hds
    simp only [ne_eq, Nat.cast_eq_zero, List.length_eq_zero]
    exact h
  have hsize : ((ds.length : ℕ) : ℚ) ≠ 0 := by
    simp only [ne_eq, Nat.cast_eq_zero, List.length_eq_zero]
    exact hds
  simp only [test, pydiv, if_neg hnum, if_neg hsize]
  rw [countCorrect_chunks B hB ds model]
  congr 1
  ring_nf

theorem zipWith_add_map_zero (l g : List ℚ) (h : g.length = l.length) :
    List.zipWith (fun a b => a + b) (l.map fun _ => (0 : ℚ)) g = g := by
  induction l generalizing g with
  | nil =>
    rw [List.length_nil, List.length_eq_zero] at h
    subst h
    rfl
  | cons a t ih =>
    cases g with
    | nil => simp at h
    | cons b tb =>
      simp only [List.length_cons, Nat.succ.injEq] at h
      simp only [List.map_cons, List.zipWith_cons_cons, zero_add]
      rw [ih tb h]

/-- Closed form of one training iteration: the returned scalar is the loss of
the forward pass at the incoming parameters; after the step the gradient
buffer holds exactly the fresh gradient of the batch (the buffer was zeroed
before `backward`), and the parameters moved by `-lr` times that gradient. -/
theorem trainStep_closed (lossFn : List ℚ → List (σ × ℕ) → ℚ)
    (gradFn : List ℚ → List (σ × ℕ) → List ℚ) (lr : ℚ)
    (st : NetState) (batch : List (σ × ℕ))
    (hg : (gradFn st.params batch).length = st.grads.length) :
    trainStep lossFn gradFn lr st batch =
      ({ params := List.zipWith (fun p gr => p - lr * gr) st.params (gradFn st.params batch),
         grads := gradFn st.params batch }, lossFn st.params batch) := by
  unfold trainStep zeroGrad backwardAdd sgdStep
  simp only
  rw [zipWith_add_map_zero st.grads (gradFn st.params batch) hg]

/-- The state part of one training iteration coincides with running the
per-batch operation trace `[forward, loss, zero_grad, backward, step, accum]`. -/
theorem trainStep_state_eq_trace (lossFn : List ℚ → List (σ × ℕ) → ℚ)
    (gradFn : List ℚ → List (σ × ℕ) → List ℚ) (lr : ℚ)
    (st : NetState) (b : List (σ × ℕ)) :
    (trainStep lossFn gradFn lr st b).1 = runTrace gradFn lr (trainBatchTrace b) st := rfl

theorem trainStep_params_length (lossFn : List ℚ → List (σ × ℕ) → ℚ)
    (gradFn : List ℚ → List (σ × ℕ) → List ℚ) (lr : ℚ)
    (st : NetState) (batch : List (σ × ℕ)) (n : ℕ)
    (hp : st.params.length = n) (hg : st.grads.length = n)
    (hgrad : ∀ q b, (gradFn q b).length = n) :
    ((trainStep lossFn gradFn lr st batch).1.params.length = n ∧
     (trainStep lossFn gradFn lr st batch).1.grads.length = n) := by
  rw [trainStep_closed lossFn gradFn lr st batch (by rw [hgrad, hg])]
  constructor
  · simp [List.length_zipWith, hp, hgrad]
  · simp [hgrad]

/-- One training iteration from states with equal parameters and arbitrary
gradient buffers (of the right size) yields identical results: the incoming
buffer is zeroed before use. -/
theorem trainStep_grads_irrelevant (lossFn : List ℚ → List (σ × ℕ) → ℚ)
    (gradFn : List ℚ → List (σ × ℕ) → List ℚ) (lr : ℚ) (n : ℕ)
    (hgrad : ∀ q b, (gradFn q b).length = n)
    (p g g' : List ℚ) (b : List (σ × ℕ))
    (hg : g.length = n) (hg' : g'.length = n) :
    trainStep lossFn gradFn lr ⟨p, g⟩ b = trainStep lossFn gradFn lr ⟨p, g'⟩ b := by
  rw [trainStep_closed lossFn gradFn lr ⟨p, g⟩ b (by simp [hgrad, hg]),
    trainStep_closed lossFn gradFn lr ⟨p, g'⟩ b (by simp [hgrad, hg'])]

/-- A full training pass over at least one batch ignores the incoming gradient
buffer: gradients are zeroed before every batch, so nothing accumulates
across batches. -/
theorem train_grads_irrelevant (lossFn : List ℚ → List (σ × ℕ) → ℚ)
    (gradFn : List ℚ → List (σ × ℕ) → List ℚ) (lr : ℚ) (n : ℕ)
    (hgrad : ∀ q b, (gradFn q b).length = n)
    (B : ℕ) (hB : B ≠ 0) (ds : List (σ × ℕ)) (hds : ds ≠ [])
    (p g g' : List ℚ) (hg : g.length = n) (hg' : g'.length = n) :
    train lossFn gradFn lr B ds ⟨p, g⟩ = train lossFn gradFn lr B ds ⟨p, g'⟩ := by
  unfold train
  simp only
  rw [chunks_cons_of_ne B hB ds hds, List.foldl_cons, List.foldl_cons]
  rw [trainStep_grads_irrelevant lossFn gradFn lr n hgrad p g g' _ hg hg']

/-- The evaluation loop's per-batch trace does not touch the training state. -/
theorem testBatchTrace_preserves (gradFn : List ℚ → List (σ × ℕ) → List ℚ) (lr : ℚ)
    (b : List (σ × ℕ)) (st : NetState) :
    runTrace gradFn lr (testBatchTrace b) st = st := rfl

/-- Under the driver's hypotheses (nonempty splits, positive batch size), one
epoch succeeds: the state advances by exactly one full training pass, and the
recorded accuracy is the aggregate validation accuracy of the resulting
parameters. -/
theorem epochStep_eq (cfg : TrainConfig σ) (hB : cfg.B ≠ 0)
    (hval : cfg.valDs ≠ []) (htrain : ∀ e, cfg.perm e ≠ [])
    (e : ℕ) (st : NetState) :
    epochStep cfg e st =
      some (trainPassState cfg e st, accOf cfg (trainPassState cfg e st).params) := by
  have hnum : (((chunks cfg.B (cfg.perm e)).length : ℕ) : ℚ) ≠ 0 := by
    have h := chunks_ne_nil cfg.B hB (cfg.perm e) (htrain e)
    simp only [ne_eq, Nat.cast_eq_zero, List.length_eq_zero]
    exact h
  have htr : (train cfg.lossOf cfg.gradFn cfg.lr cfg.B (cfg.perm e) st).2 =
      some ((train cfg.lossOf cfg.gradFn cfg.lr cfg.B (cfg.perm e) st).2.getD 0) := by
    simp only [train, pydiv]
    rw [if_neg hnum]
    rfl
  unfold epochStep
  dsimp only
  rw [htr,
    test_closed_form cfg.B hB cfg.valDs hval
      (cfg.netF (train cfg.lossOf cfg.gradFn cfg.lr cfg.B (cfg.perm e) st).1.params)
      (cfg.lossOf (train cfg.lossOf cfg.gradFn cfg.lr cfg.B (cfg.perm e) st).1.params)]
  rfl

/-- Closed form of the epoch loop: it always succeeds, advances the state by
one training pass per remaining epoch, records one accuracy per epoch, and
folds `max` over the recorded accuracies. -/
theorem epochLoop_spec (cfg : TrainConfig σ) (hB : cfg.B ≠ 0)
    (hval : cfg.valDs ≠ []) (htrain : ∀ e, cfg.perm e ≠ []) :
    ∀ (r e : ℕ) (st : NetState) (best : ℚ) (accsRev : List ℚ),
      epochLoop cfg r e st best accsRev =
        some (statesFrom cfg st e r,
              (accsFrom cfg st e r).foldl max best,
              accsRev.reverse ++ accsFrom cfg st e r) := by
  intro r
  induction r with
  | zero =>
    intro e st best accsRev
    simp [epochLoop, statesFrom, accsFrom]
  | succ n ih =>
    intro e st best accsRev
    rw [show epochLoop cfg (n + 1) e st best accsRev =
        (match epochStep cfg e st with
         | none => none
         | some sa => epochLoop cfg n (e + 1) sa.1 (max best sa.2) (sa.2 :: accsRev)) from rfl]
    rw [epochStep_eq cfg hB hval htrain e st]
    simp only
    rw [ih]
    rw [show statesFrom cfg st e (n + 1) =
        statesFrom cfg (trainPassState cfg e st) (e + 1) n from rfl]
    rw [show accsFrom cfg st e (n + 1) =
        accOf cfg (trainPassState cfg e st).params ::
          accsFrom cfg (trainPassState cfg e st) (e + 1) n from rfl]
    simp [List.foldl_cons, List.reverse_cons, List.append_assoc]

theorem accsFrom_length (cfg : TrainConfig σ) :
    ∀ (r e : ℕ) (st : NetState), (accsFrom cfg st e r).length = r := by
  intro r
  induction r with
  | zero => intro e st; rfl
  | succ n ih =>
    intro e st
    simp only [accsFrom, List.length_cons, ih]

theorem accOf_nonneg (cfg : TrainConfig σ) (p : List ℚ) : 0 ≤ accOf cfg p := by
  unfold accOf
  positivity

theorem accsFrom_nonneg (cfg : TrainConfig σ) :
    ∀ (r e : ℕ) (st : NetState) (a : ℚ), a ∈ accsFrom cfg st e r → 0 ≤ a := by
  intro r
  induction r with
  | zero => intro e st a ha; simp [accsFrom] at ha
  | succ n ih =>
    intro e st a ha
    rw [show accsFrom cfg st e (n + 1) =
        accOf cfg (trainPassState cfg e st).params ::
          accsFrom cfg (trainPassState cfg e st) (e + 1) n from rfl] at ha
    rcases List.mem_cons.mp ha with rfl | ha
    · exact accOf_nonneg cfg _
    · exact ih (e + 1) (trainPassState cfg e st) a ha

theorem foldl_max_ge (l : List ℚ) :
    ∀ init : ℚ, init ≤ l.foldl max init ∧ ∀ a ∈ l, a ≤ l.foldl max init := by
  induction l with
  | nil => intro init; simp
  | cons a t ih =>
    intro init
    rw [List.foldl_cons]
    obtain ⟨h1, h2⟩ := ih (max init a)
    refine ⟨le_trans (le_max_left _ _) h1, ?_⟩
    intro x hx
    rcases List.mem_cons.mp hx with rfl | hx
    · exact le_trans (le_max_right _ _) h1
    · exact h2 x hx

theorem foldl_max_mem_or_init (l : List ℚ) :
    ∀ init : ℚ, l.foldl max init = init ∨ l.foldl max init ∈ l := by
  induction l with
  | nil => intro init; simp
  | cons a t ih =>
    intro init
    rw [List.foldl_cons]
    rcases ih (max init a) with h | h
    · rcases le_total init a with hle | hle
      · right
        rw [h, max_eq_right hle]
        exact List.mem_cons_self a t
      · left
        rw [h, max_eq_left hle]
    · right
      exact List.mem_cons_of_mem a h

/-- The final state of the epoch loop is the fold of the per-epoch training
passes (evaluation has no effect on the state). -/
theorem statesFrom_eq_foldl (cfg : TrainConfig σ) :
    ∀ (r e : ℕ) (st : NetState),
      statesFrom cfg st e r =
        (List.range' e r).foldl (fun s i => trainPassState cfg i s) st := by
  intro r
  induction r with
  | zero => intro e st; rfl
  | succ n ih =>
    intro e st
    rw [show statesFrom cfg st e (n + 1) =
        statesFrom cfg (trainPassState cfg e st) (e + 1) n from rfl]
    rw [ih, List.range'_succ, List.foldl_cons]

/-! ## The claims -/

/-- Claim C1: for every validation split, the Evaluation Step (`test`) returns
the aggregate accuracy percentage and the mean loss of the full split, once
after iterating all batches: the accuracy is `100 · #{samples whose
first-maximal score index equals the label} / #samples` counted over the whole
split, and the returned loss is the accumulated per-batch loss divided once by
the number of batches. -/
theorem test_returns_split_aggregates (B : ℕ) (hB : B ≠ 0)
    (ds : List (σ × ℕ)) (hds : ds ≠ [])
    (model : σ → List ℚ) (lossFn : List (σ × ℕ) → ℚ) :
    test B ds model lossFn =
      some (100 * ((countCorrect model ds : ℕ) : ℚ) / ((ds.length : ℕ) : ℚ),
            ((chunks B ds).map lossFn).sum / (((chunks B ds).length : ℕ) : ℚ)) :=
  test_closed_form B hB ds hds model lossFn

theorem test_returns_split_aggregates_witness :
    test batchSize [((0 : ℕ), 0)] (fun _ => [(1 : ℚ), 0]) (fun _ => 2) =
      some (100 * ((countCorrect (fun _ => [(1 : ℚ), 0]) [((0 : ℕ), 0)] : ℕ) : ℚ) /
              (([((0 : ℕ), 0)].length : ℕ) : ℚ),
            ((chunks batchSize [((0 : ℕ), 0)]).map (fun _ => (2 : ℚ))).sum /
              (((chunks batchSize [((0 : ℕ), 0)]).length : ℕ) : ℚ)) :=
  test_returns_split_aggregates batchSize (by decide) [((0 : ℕ), 0)] (by decide)
    (fun _ => [(1 : ℚ), 0]) (fun _ => 2)

/-- Claim C2: one full pass of the batch iterator over (a shuffle of) a dataset
of size `S` with batch size `B` yields exactly `⌈S/B⌉ = (S + B - 1) / B`
batches, every batch except possibly the last has exactly `B` samples, and the
concatenation of all batches is a permutation of the dataset (each sample
appears exactly once). -/
theorem dataloader_pass_covers_dataset (B : ℕ) (hB : B ≠ 0)
    (ds p : List α) (hperm : p.Perm ds) :
    (chunks B p).length = (ds.length + B - 1) / B ∧
    (∀ c ∈ (chunks B p).dropLast, c.length = B) ∧
    (chunks B p).flatten.Perm ds := by
  refine ⟨?_, chunks_dropLast_length B hB p, ?_⟩
  · rw [chunks_length B hB, hperm.length_eq]
  · rw [chunks_flatten B hB]
    exact hperm

theorem dataloader_pass_covers_dataset_witness :
    (chunks batchSize [(1 : ℕ), 0]).length = ([(0 : ℕ), 1].length + batchSize - 1) / batchSize ∧
    (∀ c ∈ (chunks batchSize [(1 : ℕ), 0]).dropLast, c.length = batchSize) ∧
    (chunks batchSize [(1 : ℕ), 0]).flatten.Perm [(0 : ℕ), 1] :=
  dataloader_pass_covers_dataset batchSize (by decide) [(0 : ℕ), 1] [(1 : ℕ), 0] (by decide)

/-- Claim C3: one training iteration performs, in source order, forward pass,
scalar loss, `zero_grad`, `backward`, `step` (conjunct listing the operation
trace); its result is the loss of the forward pass at the incoming parameters,
with the gradient buffer holding exactly the fresh batch gradient and the
parameters updated by `-lr` times it (conjunct giving the closed form); and
because the buffer is zeroed before each batch's backward pass, a training
pass is independent of the incoming gradient buffer — gradients never
accumulate across batches (last conjunct). -/
theorem trainStep_order_no_accumulation
    (lossFn : List ℚ → List (σ × ℕ) → ℚ) (gradFn : List ℚ → List (σ × ℕ) → List ℚ)
    (lr : ℚ) (n : ℕ) (hgrad : ∀ q b, (gradFn q b).length = n) :
    (∀ (st : NetState) (b : List (σ × ℕ)),
      (trainStep lossFn gradFn lr st b).1 = runTrace gradFn lr (trainBatchTrace b) st) ∧
    (∀ (st : NetState) (batch : List (σ × ℕ)), st.grads.length = n →
      trainStep lossFn gradFn lr st batch =
        ({ params := List.zipWith (fun w gr => w - lr * gr) st.params
              (gradFn st.params batch),
           grads := gradFn st.params batch }, lossFn st.params batch)) ∧
    (∀ (B : ℕ), B ≠ 0 → ∀ (ds : List (σ × ℕ)), ds ≠ [] → ∀ (p g g' : List ℚ),
      g.length = n → g'.length = n →
      train lossFn gradFn lr B ds ⟨p, g⟩ = train lossFn gradFn lr B ds ⟨p, g'⟩) := by
  refine ⟨fun st b => trainStep_state_eq_trace lossFn gradFn lr st b, ?_, ?_⟩
  · intro st batch hlen
    exact trainStep_closed lossFn gradFn lr st batch (by rw [hgrad, hlen])
  · intro B hB ds hds p g g' hg hg'
    exact train_grads_irrelevant lossFn gradFn lr n hgrad B hB ds hds p g g' hg hg'

theorem trainStep_order_no_accumulation_witness :
    trainStep (fun (_ : List ℚ) (_ : List (ℕ × ℕ)) => (7 : ℚ))
        (fun (_ : List ℚ) (_ : List (ℕ × ℕ)) => [(2 : ℚ)]) 1 ⟨[(5 : ℚ)], [(3 : ℚ)]⟩ [] =
      ({ params := List.zipWith (fun w gr => w - 1 * gr) [(5 : ℚ)] [(2 : ℚ)],
         grads := [(2 : ℚ)] }, 7) :=
  (trainStep_order_no_accumulation (fun _ _ => (7 : ℚ)) (fun _ _ => [(2 : ℚ)]) 1 1
    (fun _ _ => rfl)).2.1 ⟨[(5 : ℚ)], [(3 : ℚ)]⟩ [] rfl

/-- Claim C4: for consistently shaped parameters, the walkthrough `forward`
computes exactly flatten, linear, ReLU, linear, ReLU, linear: the output shape
is `[batch size, #classes]`, and the output data is, sample by sample, the raw
affine score vector `sampleNet` — no probability normalization anywhere. -/
theorem forward_flatten_linear_relu_scores (p : NNParams) (x : Tensor)
    (hb1 : p.b1.length = p.W1.length)
    (hb2 : p.b2.length = p.W2.length)
    (hW1pos : p.W1 ≠ [])
    (hW2pos : p.W2 ≠ [])
    (hW2in : p.W2.headI.length = p.W1.length)
    (hW3in : p.W3.headI.length = p.W2.length)
    (hclasses : p.W3.length = classes.length) :
    (forward p x).shape = [x.shape.headI, classes.length] ∧
    (forward p x).data =
      ((chunks p.W1.headI.length x.data).map (sampleNet p)).flatten := by
  obtain ⟨h1, h2⟩ := forward_closed_form p x hb1 hb2 hW1pos hW2pos hW2in hW3in
  exact ⟨by rw [h1, hclasses], h2⟩

theorem forward_flatten_linear_relu_scores_witness :
    (forward ⟨[[1]], [0], [[1]], [0], List.replicate 8 [1], List.replicate 8 0⟩
        ⟨[1, 1], [3]⟩).shape = [(⟨[1, 1], [3]⟩ : Tensor).shape.headI, classes.length] ∧
    (forward ⟨[[1]], [0], [[1]], [0], List.replicate 8 [1], List.replicate 8 0⟩
        ⟨[1, 1], [3]⟩).data =
      ((chunks ([[(1 : ℚ)]].headI.length) (⟨[1, 1], [3]⟩ : Tensor).data).map
        (sampleNet ⟨[[1]], [0], [[1]], [0], List.replicate 8 [1], List.replicate 8 0⟩)).flatten :=
  forward_flatten_linear_relu_scores
    ⟨[[1]], [0], [[1]], [0], List.replicate 8 [1], List.replicate 8 0⟩ ⟨[1, 1], [3]⟩
    (by decide) (by decide) (by decide) (by decide) (by decide) (by decide) (by decide)

/-- Claim C5: the epoch driver runs exactly the configured number of epochs
(`numEpochs = 50`) with no early stopping: the run succeeds, its final state is
the fold of one full training pass per epoch (evaluation touches no state),
one validation accuracy is recorded per epoch, and the reported best score is
the maximum accuracy observed across all epochs. -/
theorem runEpochs_epoch_count_and_best (cfg : TrainConfig σ) (st0 : NetState)
    (hB : cfg.B ≠ 0) (hval : cfg.valDs ≠ []) (htrain : ∀ e, cfg.perm e ≠ []) :
    ∃ best accs,
      runEpochs cfg numEpochs st0 =
        some ((List.range' 0 numEpochs).foldl (fun s i => trainPassState cfg i s) st0,
              best, accs) ∧
      numEpochs = 50 ∧
      accs = accsFrom cfg st0 0 numEpochs ∧
      accs.length = numEpochs ∧
      best ∈ accs ∧ ∀ a ∈ accs, a ≤ best := by
  have h := epochLoop_spec cfg hB hval htrain numEpochs 0 st0 0 []
  refine ⟨(accsFrom cfg st0 0 numEpochs).foldl max 0, accsFrom cfg st0 0 numEpochs,
    ?_, rfl, rfl, accsFrom_length cfg numEpochs 0 st0, ?_, (foldl_max_ge _ 0).2⟩
  · rw [runEpochs, h, statesFrom_eq_foldl]
    simp
  · rcases foldl_max_mem_or_init (accsFrom cfg st0 0 numEpochs) 0 with h0 | hmem
    · have hlen : (accsFrom cfg st0 0 numEpochs).length = numEpochs :=
        accsFrom_length cfg numEpochs 0 st0
      have hne : accsFrom cfg st0 0 numEpochs ≠ [] := by
        intro hnil
        rw [hnil] at hlen
        simp [numEpochs] at hlen
      obtain ⟨a, t, hat⟩ := List.exists_cons_of_ne_nil hne
      have ha_mem : a ∈ accsFrom cfg st0 0 numEpochs := by
        rw [hat]
        exact List.mem_cons_self a t
      have hle := (foldl_max_ge (accsFrom cfg st0 0 numEpochs) 0).2 a ha_mem
      rw [h0] at hle
      have hge := accsFrom_nonneg cfg numEpochs 0 st0 a ha_mem
      rw [h0, ← le_antisymm hle hge]
      exact ha_mem
    · exact hmem

theorem runEpochs_epoch_count_and_best_witness :
    ∃ best accs,
      runEpochs demoCfg numEpochs ⟨[], []⟩ =
        some ((List.range' 0 numEpochs).foldl (fun s i => trainPassState demoCfg i s) ⟨[], []⟩,
              best, accs) ∧
      numEpochs = 50 ∧
      accs = accsFrom demoCfg ⟨[], []⟩ 0 numEpochs ∧
      accs.length = numEpochs ∧
      best ∈ accs ∧ ∀ a ∈ accs, a ≤ best :=
  runEpochs_epoch_count_and_best demoCfg ⟨[], []⟩ (by decide) (by decide)
    (fun _ => List.cons_ne_nil _ _)

/-- Claim C6: the evaluation loop performs forward passes only: running the
per-batch evaluation traces of a full validation pass leaves the training
state — every parameter and every gradient buffer — unchanged. -/
theorem evaluation_preserves_parameters (gradFn : List ℚ → List (σ × ℕ) → List ℚ)
    (lr : ℚ) (B : ℕ) (ds : List (σ × ℕ)) (st : NetState) :
    (chunks B ds).foldl (fun s b => runTrace gradFn lr (testBatchTrace b) s) st = st := by
  induction chunks B ds generalizing st with
  | nil => rfl
  | cons b t ih =>
    rw [List.foldl_cons, testBatchTrace_preserves]
    exact ih st

/-- Claim C7: on every nonempty split, with a nonnegative per-batch loss (as
cross-entropy is), the Evaluation Step reports an accuracy within `[0, 100]`
and a mean loss `≥ 0`. -/
theorem test_accuracy_in_range_loss_nonneg (B : ℕ) (hB : B ≠ 0)
    (ds : List (σ × ℕ)) (hds : ds ≠ [])
    (model : σ → List ℚ) (lossFn : List (σ × ℕ) → ℚ)
    (hloss : ∀ b ∈ chunks B ds, 0 ≤ lossFn b) :
    ∃ acc l, test B ds model lossFn = some (acc, l) ∧
      0 ≤ acc ∧ acc ≤ 100 ∧ 0 ≤ l := by
  refine ⟨_, _, test_closed_form B hB ds hds model lossFn, ?_, ?_, ?_⟩
  · positivity
  · have hs : (0 : ℚ) < ((ds.length : ℕ) : ℚ) := by
      have := List.length_pos.mpr hds
      exact_mod_cast this
    rw [div_le_iff₀ hs]
    have hcc : countCorrect model ds ≤ ds.length := List.countP_le_length _
    have hc : ((countCorrect model ds : ℕ) : ℚ) ≤ ((ds.length : ℕ) : ℚ) := by
      exact_mod_cast hcc
    linarith
  · apply div_nonneg
    · apply List.sum_nonneg
      intro x hx
      rcases List.mem_map.mp hx with ⟨b, hb, rfl⟩
      exact hloss b hb
    · positivity

theorem test_accuracy_in_range_loss_nonneg_witness :
    ∃ acc l, test batchSize [((0 : ℕ), 0)] (fun _ => [(1 : ℚ)]) (fun _ => 1) = some (acc, l) ∧
      0 ≤ acc ∧ acc ≤ 100 ∧ 0 ≤ l :=
  test_accuracy_in_range_loss_nonneg batchSize (by decide) [((0 : ℕ), 0)] (by decide)
    (fun _ => [(1 : ℚ)]) (fun _ => 1) (fun _ _ => by norm_num)

/-- Claim C8: the validation preprocessing pipeline (`Resize` then `ToTensor`,
no augmentation) is deterministic: its output does not depend on the random
stream, and applying it twice in sequence to the same raw image yields
identical outputs. -/
theorem test_transformations_deterministic (resize toTensor : α → α)
    (img : α) (r1 r2 : RandState) :
    (test_transformations resize toTensor img r1).1 =
      (test_transformations resize toTensor img r2).1 ∧
    (test_transformations resize toTensor img
        (test_transformations resize toTensor img r1).2).1 =
      (test_transformations resize toTensor img r1).1 := by
  constructor <;> rfl

/-- Claim C9: on an empty dataset (zero samples, hence zero batches) neither
`train` nor `test` returns metrics: both divide by the number of batches
(and `test` also by the dataset size), which is zero, so the Python run dies
with `ZeroDivisionError` — modelled as `none`. -/
theorem empty_split_zero_division (B : ℕ) (model : σ → List ℚ)
    (lossB : List (σ × ℕ) → ℚ) (lossFn : List ℚ → List (σ × ℕ) → ℚ)
    (gradFn : List ℚ → List (σ × ℕ) → List ℚ) (lr : ℚ) (st : NetState) :
    test B ([] : List (σ × ℕ)) model lossB = none ∧
    (train lossFn gradFn lr B [] st).2 = none := by
  constructor
  · simp [test, chunks_nil, pydiv]
  · simp [train, chunks_nil, pydiv]

/-- Claim C10: the walkthrough `forward` and the exercise `forward` (with its
extra `torch.flatten(x, 1)` before the last layer) compute the same function:
the hidden activations are already 2-D, so the extra flatten is the identity. -/
theorem forwardEx_eq_forward (p : NNParams) (x : Tensor) :
    forwardEx p x = forward p x := by
  have hshape : (seqApply (linearReluStack p) (flattenFrom1 x)).shape
      = [x.shape.headI, p.W2.length] := by
    simp [seqApply, linearReluStack, linear, reluT, flattenFrom1]
  show seqApply (lastLayer p) (flattenFrom1 (seqApply (linearReluStack p) (flattenFrom1 x)))
      = seqApply (lastLayer p) (seqApply (linearReluStack p) (flattenFrom1 x))
  rw [flattenFrom1_of_rank2 _ _ _ hshape]

end DLDemo
